import Mathlib

/-!
Shallow embedding of the `fraction` crate (`src/lib.rs`, `src/complex.rs`):
an exact rational `Fraction` type (numerator `i32`, denominator `u32`,
modelled as `Int` and `Nat`), a `Complex` type over it, the trial-division
`gcd` helper, and the display/parse text grammars (modelled over
`List Char`).  Machine-integer overflow is outside the scope of the claims
settled here; the fixed widths enter only as range hypotheses on parsing.
-/

namespace Frac

/-- `get_ordering` from `src/lib.rs`: returns the pair with the smallest value first. -/
def get_ordering (a b : Nat) : Nat × Nat :=
  if a < b then (a, b) else (b, a)

/-- The `while` loop of `gcd` in `src/lib.rs`.  The Rust loop mutates
`small`, `large`, `result` and `i`; here every iteration is one recursive
call.  When the divisibility test fires the source sets `i = 1` and then
runs the common `i += 1`, so the recursive call restarts at `i = 2`.
`fuel` bounds the number of iterations: the measure `2 * small + 2 - i`
strictly decreases at each iteration, so the fuel `2 * small + 2` passed by
`gcd` is never exhausted (this is proved via `gcdLoop_eq`). -/
def gcdLoop : Nat → Nat → Nat → Nat → Nat → Nat
  | 0, _, _, result, _ => result
  | fuel + 1, small, large, result, i =>
    if i ≤ small then
      if small % i = 0 ∧ large % i = 0 then
        gcdLoop fuel (small / i) (large / i) (result * i) 2
      else
        gcdLoop fuel small large result (i + 1)
    else
      result

/-- `gcd` from `src/lib.rs`: trial division that repeatedly divides out the
smallest common factor of the ordered pair, accumulating it into `result`. -/
def gcd (a b : Nat) : Nat :=
  let p := get_ordering a b
  gcdLoop (2 * p.1 + 2) p.1 p.2 1 1

/-- `DivByZeroError` from `src/lib.rs`. -/
inductive DivByZeroError
  | mk
deriving DecidableEq

/-- `Fraction` from `src/lib.rs`: numerator is an `i32`, denominator a
`u32`; modelled over unbounded `Int` and `Nat`. -/
structure Fraction where
  numerator : Int
  denominator : Nat
deriving DecidableEq

/-- `Fraction::unsimplified_new`: rejects a zero denominator, stores the
components verbatim otherwise. -/
def Fraction.unsimplified_new (numerator : Int) (denominator : Nat) :
    Except DivByZeroError Fraction :=
  if denominator = 0 then .error .mk else .ok ⟨numerator, denominator⟩

/-- `Fraction::unchecked_new`: stores the components with no validation. -/
def Fraction.unchecked_new (numerator : Int) (denominator : Nat) : Fraction :=
  ⟨numerator, denominator⟩

/-- `Fraction::simplify`: divides numerator and denominator by
`gcd(|numerator|, denominator)` (the crate's own `gcd`).  Rust's `i32`
division truncates toward zero, hence `Int.tdiv`. -/
def Fraction.simplify (f : Fraction) : Fraction :=
  let g := gcd f.numerator.natAbs f.denominator
  ⟨Int.tdiv f.numerator (g : Int), f.denominator / g⟩

/-- `Fraction::new`: `unsimplified_new` followed by `simplify` (the `?`
operator propagates the error case). -/
def Fraction.new (numerator : Int) (denominator : Nat) :
    Except DivByZeroError Fraction :=
  match Fraction.unsimplified_new numerator denominator with
  | .ok f => .ok f.simplify
  | .error e => .error e

/-- `Fraction::from_i32`. -/
def Fraction.from_i32 (value : Int) : Fraction :=
  Fraction.unchecked_new value 1

/-- Models Rust's `Result::expect` as used by the arithmetic operators: the
`.error` case is a panic in the source, unreachable for operands with
nonzero denominator; the model returns the junk value `0/0` there. -/
def expectOk : Except DivByZeroError Fraction → Fraction
  | .ok f => f
  | .error _ => ⟨0, 0⟩

/-- `Neg for Fraction`. -/
def Fraction.neg (f : Fraction) : Fraction :=
  Fraction.unchecked_new (-f.numerator) f.denominator

/-- `Add for Fraction`: combine over the common denominator
`self.d * rhs.d / gcd(self.d, rhs.d)`, then construct via `Fraction::new`
(which simplifies); the `expect` is a panic only for a zero denominator. -/
def Fraction.add (a rhs : Fraction) : Fraction :=
  let denominator_gcd := gcd a.denominator rhs.denominator
  let numerator := a.numerator * ((rhs.denominator / denominator_gcd : Nat) : Int)
    + rhs.numerator * ((a.denominator / denominator_gcd : Nat) : Int)
  let denominator := a.denominator * rhs.denominator / denominator_gcd
  expectOk (Fraction.new numerator denominator)

/-- `Sub for Fraction`: addition of the negation. -/
def Fraction.sub (a rhs : Fraction) : Fraction :=
  a.add rhs.neg

/-- `Mul for Fraction`. -/
def Fraction.mul (a rhs : Fraction) : Fraction :=
  expectOk (Fraction.new (a.numerator * rhs.numerator) (a.denominator * rhs.denominator))

/-- `Fraction::signum`: the signum of the numerator. -/
def Fraction.signum (f : Fraction) : Int :=
  Int.sign f.numerator

/-- `Fraction::reciprocal`: swaps the components, carrying the numerator's
sign onto the new numerator; `unsimplified_new` rejects a zero `|numerator|`. -/
def Fraction.reciprocal (f : Fraction) : Except DivByZeroError Fraction :=
  Fraction.unsimplified_new ((f.denominator : Int) * Int.sign f.numerator) f.numerator.natAbs

/-- `Fraction::abs`: absolute value of the numerator, denominator kept. -/
def Fraction.abs (f : Fraction) : Fraction :=
  Fraction.unchecked_new (f.numerator.natAbs : Int) f.denominator

/-- `Div for Fraction`: multiplication by the unwrapped reciprocal. -/
def Fraction.div (a rhs : Fraction) : Fraction :=
  a.mul (expectOk rhs.reciprocal)

/-- Rust's `i32::cmp`. -/
def intCmp (x y : Int) : Ordering :=
  if x < y then .lt else if x = y then .eq else .gt

/-- `Ord for Fraction`: cross-multiplication comparison. -/
def Fraction.cmp (a b : Fraction) : Ordering :=
  intCmp (a.numerator * (b.denominator : Int)) (b.numerator * (a.denominator : Int))

/-- `PartialEq for Fraction`: equality iff `cmp` returns `Equal`. -/
def Fraction.beq (a b : Fraction) : Bool :=
  match a.cmp b with
  | .eq => true
  | _ => false

/-- Rust's derived `>=` on `Fraction` (via `PartialOrd`/`Ord::cmp`). -/
def Fraction.geq (a b : Fraction) : Bool :=
  match a.cmp b with
  | .lt => false
  | _ => true

/-- The rational value a fraction denotes (`numerator / denominator`). -/
def Fraction.val (f : Fraction) : ℚ :=
  (f.numerator : ℚ) / (f.denominator : ℚ)

/-- The ASCII digit character for `d < 10` (Rust renders integers in decimal). -/
def digitChar (d : Nat) : Char := Char.ofNat (48 + d)

/-- Little-endian decimal digits of `n`; any `fuel ≥ n` is enough, since the
argument shrinks by a factor of ten each step. -/
def toDigitsRev : Nat → Nat → List Nat
  | 0, _ => []
  | fuel + 1, n => if n = 0 then [] else n % 10 :: toDigitsRev fuel (n / 10)

/-- Decimal rendering of a `u32` value, as Rust's `Display` writes it. -/
def natChars (n : Nat) : List Char :=
  if n = 0 then ['0'] else ((toDigitsRev n n).map digitChar).reverse

/-- Decimal rendering of an `i32` value: minus sign for negatives. -/
def intChars (n : Int) : List Char :=
  if n < 0 then '-' :: natChars n.natAbs else natChars n.natAbs

/-- `Display for Fraction` (`src/lib.rs`): `numerator/denominator` unless
the denominator is `1`, in which case just the bare numerator. -/
def fmtFraction (f : Fraction) : List Char :=
  if f.denominator ≠ 1 then intChars f.numerator ++ '/' :: natChars f.denominator
  else intChars f.numerator

/-- Rust's `char::is_whitespace`: the Unicode `White_Space` code points. -/
def isRustWhitespace (c : Char) : Bool :=
  c.toNat == 9 || c.toNat == 10 || c.toNat == 11 || c.toNat == 12 || c.toNat == 13 ||
  c.toNat == 32 || c.toNat == 133 || c.toNat == 160 || c.toNat == 5760 ||
  c.toNat == 8192 || c.toNat == 8193 || c.toNat == 8194 || c.toNat == 8195 ||
  c.toNat == 8196 || c.toNat == 8197 || c.toNat == 8198 || c.toNat == 8199 ||
  c.toNat == 8200 || c.toNat == 8201 || c.toNat == 8202 || c.toNat == 8232 ||
  c.toNat == 8233 || c.toNat == 8239 || c.toNat == 8287 || c.toNat == 12288

/-- Rust's `str::trim`: strip whitespace from both ends. -/
def trimChars (s : List Char) : List Char :=
  ((s.dropWhile isRustWhitespace).reverse.dropWhile isRustWhitespace).reverse

/-- Rust's `str::split_once`: split at the first occurrence of `sep`. -/
def splitOnce (sep : Char) : List Char → Option (List Char × List Char)
  | [] => none
  | c :: rest =>
    if c = sep then some ([], rest)
    else Option.map (fun p => (c :: p.1, p.2)) (splitOnce sep rest)

/-- The numeric value of an ASCII digit character. -/
def charDigit (c : Char) : Option Nat :=
  if 48 ≤ c.toNat ∧ c.toNat ≤ 57 then some (c.toNat - 48) else none

/-- Decimal accumulation over a digit string (Rust's integer `from_str`
core loop); fails on the first non-digit. -/
def parseNatCore : List Char → Nat → Option Nat
  | [], acc => some acc
  | c :: rest, acc =>
    match charDigit c with
    | some d => parseNatCore rest (10 * acc + d)
    | none => none

/-- Digit string to `Nat`: rejects the empty string. -/
def parseNatRaw (s : List Char) : Option Nat :=
  match s with
  | [] => none
  | _ :: _ => parseNatCore s 0

/-- Strip one optional leading `+` (Rust's unsigned `from_str` accepts it). -/
def stripPlus (s : List Char) : List Char :=
  match s with
  | c :: rest => if c = '+' then rest else c :: rest
  | [] => []

/-- Rust's `u32::from_str`: optional `+`, one or more digits, value below `2^32`. -/
def parseU32 (s : List Char) : Option Nat :=
  match parseNatRaw (stripPlus s) with
  | some v => if v < 2 ^ 32 then some v else none
  | none => none

/-- Rust's `i32::from_str`: optional sign, one or more digits, value within
`[-2^31, 2^31)`. -/
def parseI32 (s : List Char) : Option Int :=
  match s with
  | [] => none
  | c :: rest =>
    if c = '-' then
      match parseNatRaw rest with
      | some v => if v ≤ 2 ^ 31 then some (-(v : Int)) else none
      | none => none
    else if c = '+' then
      match parseNatRaw rest with
      | some v => if v < 2 ^ 31 then some ((v : Nat) : Int) else none
      | none => none
    else
      match parseNatRaw (c :: rest) with
      | some v => if v < 2 ^ 31 then some ((v : Nat) : Int) else none
      | none => none

/-- `ParseFractionError` from `src/lib.rs`. -/
inductive ParseFractionError
  | mk
deriving DecidableEq

/-- The body of `FromStr for Fraction` after the split: trim both sides,
parse `i32` and `u32`, construct through `Fraction::new`, collapsing every
failure to `ParseFractionError`. -/
def from_str_parts (numerator_str denominator_str : List Char) :
    Except ParseFractionError Fraction :=
  match parseI32 (trimChars numerator_str), parseU32 (trimChars denominator_str) with
  | some numerator, some denominator =>
    match Fraction.new numerator denominator with
    | .ok f => .ok f
    | .error _ => .error .mk
  | _, _ => .error .mk

/-- `FromStr for Fraction` (`src/lib.rs`): split on the first `/` (failing
with `ParseFractionError` when there is none), then parse the two sides. -/
def from_str (s : List Char) : Except ParseFractionError Fraction :=
  match splitOnce '/' s with
  | none => .error .mk
  | some (numerator_str, denominator_str) => from_str_parts numerator_str denominator_str

/-- `Complex` from `src/complex.rs`: a pair of `Fraction`s. -/
structure Complex where
  real : Fraction
  imaginary : Fraction
deriving DecidableEq

/-- `Neg for Complex`: component-wise negation. -/
def Complex.neg (c : Complex) : Complex :=
  ⟨c.real.neg, c.imaginary.neg⟩

/-- `Add for Complex`: component-wise addition. -/
def Complex.add (a rhs : Complex) : Complex :=
  ⟨a.real.add rhs.real, a.imaginary.add rhs.imaginary⟩

/-- `Sub for Complex`: addition of the negation. -/
def Complex.sub (a rhs : Complex) : Complex :=
  a.add rhs.neg

/-- `Mul for Complex`: `(ac - bd, ad + bc)`. -/
def Complex.mul (a rhs : Complex) : Complex :=
  ⟨(a.real.mul rhs.real).sub (a.imaginary.mul rhs.imaginary),
    (a.real.mul rhs.imaginary).add (a.imaginary.mul rhs.real)⟩

/-- `Complex::conjugate`: negate the imaginary component. -/
def Complex.conjugate (c : Complex) : Complex :=
  ⟨c.real, c.imaginary.neg⟩

/-- `Div for Complex`: multiply by the divisor's conjugate, divide both
components by the divisor's squared modulus. -/
def Complex.div (a rhs : Complex) : Complex :=
  let numerator := a.mul rhs.conjugate
  let denominator := (rhs.real.mul rhs.real).add (rhs.imaginary.mul rhs.imaginary)
  ⟨numerator.real.div denominator, numerator.imaginary.div denominator⟩

/-- `PartialEq for Complex`: component-wise `Fraction` equality. -/
def Complex.beq (a b : Complex) : Bool :=
  Fraction.beq a.real b.real && Fraction.beq a.imaginary b.imaginary

/-- `Display for Complex` (`src/complex.rs`): suppress a zero imaginary
part (checked first), then a zero real part, then sign-aware rendering. -/
def fmtComplex (c : Complex) : List Char :=
  if c.imaginary.numerator = 0 then fmtFraction c.real
  else if c.real.numerator = 0 then fmtFraction c.imaginary ++ ['i']
  else if Fraction.geq c.imaginary (Fraction.from_i32 0) = true then
    fmtFraction c.real ++ ' ' :: '+' :: ' ' :: (fmtFraction c.imaginary ++ ['i'])
  else
    fmtFraction c.real ++ ' ' :: '-' :: ' ' :: (fmtFraction c.imaginary.abs ++ ['i'])

/-- Both components of a complex value have positive denominators. -/
def ComplexValid (c : Complex) : Prop :=
  0 < c.real.denominator ∧ 0 < c.imaginary.denominator

/-- Loop invariant of the trial-division gcd: if no integer in `[2, i)`
divides both operands, running the loop multiplies `result` by the
mathematical gcd of the operands. -/
theorem gcdLoop_eq (fuel : Nat) : ∀ small large result i : Nat,
    1 ≤ small → 1 ≤ i → 2 * small + 2 - i < fuel →
    (∀ j, 2 ≤ j → j < i → ¬(j ∣ small ∧ j ∣ large)) →
    gcdLoop fuel small large result i = result * Nat.gcd small large := by
  induction fuel with
  | zero => intro small large result i hs hi hf hinv; omega
  | succ fuel ih =>
    intro small large result i hs hi hf hinv
    simp only [gcdLoop]
    by_cases hle : i ≤ small
    · rw [if_pos hle]
      by_cases hdvd : small % i = 0 ∧ large % i = 0
      · rw [if_pos hdvd]
        have hi0 : 0 < i := hi
        have hds : i ∣ small := Nat.dvd_of_mod_eq_zero hdvd.1
        have hdl : i ∣ large := Nat.dvd_of_mod_eq_zero hdvd.2
        have hq : 1 ≤ small / i := (Nat.one_le_div_iff hi0).mpr hle
        have hfuel2 : 2 * (small / i) + 2 - 2 < fuel := by
          rcases Nat.lt_or_ge i 2 with h1 | h2
          · have hi1 : i = 1 := by omega
            subst hi1
            rw [Nat.div_one]
            omega
          · have hhalf : small / i ≤ small / 2 := Nat.div_le_div_right (Nat.le_refl _)
              |>.trans (Nat.div_le_div_left h2 (by omega))
            have h2s : 2 * (small / 2) ≤ small := by
              have := Nat.div_mul_le_self small 2
              omega
            omega
        rw [ih (small / i) (large / i) (result * i) 2 hq (by omega) hfuel2
          (by intro j hj2 hj; omega)]
        have hsmall : i * (small / i) = small := Nat.mul_div_cancel' hds
        have hlarge : i * (large / i) = large := Nat.mul_div_cancel' hdl
        calc result * i * Nat.gcd (small / i) (large / i)
            = result * (i * Nat.gcd (small / i) (large / i)) := by ring
          _ = result * Nat.gcd (i * (small / i)) (i * (large / i)) := by
              rw [Nat.gcd_mul_left]
          _ = result * Nat.gcd small large := by rw [hsmall, hlarge]
      · rw [if_neg hdvd]
        apply ih small large result (i + 1) hs (by omega) (by omega)
        intro j hj2 hji
        rcases Nat.lt_or_ge j i with hj | hj
        · exact hinv j hj2 hj
        · have hj_eq : j = i := by omega
          subst hj_eq
          rintro ⟨d1, d2⟩
          exact hdvd ⟨Nat.mod_eq_zero_of_dvd d1, Nat.mod_eq_zero_of_dvd d2⟩
    · rw [if_neg hle]
      have hg1 : Nat.gcd small large = 1 := by
        by_contra hne
        have hgpos : 0 < Nat.gcd small large := Nat.gcd_pos_of_pos_left _ hs
        have hdl : Nat.gcd small large ∣ small := Nat.gcd_dvd_left _ _
        have hle2 : Nat.gcd small large ≤ small := Nat.le_of_dvd hs hdl
        exact hinv _ (by omega) (by omega) ⟨hdl, Nat.gcd_dvd_right _ _⟩
      rw [hg1, Nat.mul_one]

/-- On positive inputs the source's trial-division `gcd` agrees with the
mathematical greatest common divisor. -/
theorem gcd_of_pos (a b : Nat) (ha : 1 ≤ a) (hb : 1 ≤ b) :
    gcd a b = Nat.gcd a b := by
  by_cases h : a < b
  · simp only [gcd, get_ordering, if_pos h]
    rw [gcdLoop_eq _ a b 1 1 ha le_rfl (by omega) (by intro j hj2 hj; omega), Nat.one_mul]
  · simp only [gcd, get_ordering, if_neg h]
    rw [gcdLoop_eq _ b a 1 1 hb le_rfl (by omega) (by intro j hj2 hj; omega), Nat.one_mul,
      Nat.gcd_comm]

/-- When the smaller argument is `0`, the loop body never runs (its guard is
`i <= small` with `i` starting at `1`), so the source's `gcd` returns the
initial `result = 1` — not the mathematical convention `gcd 0 n = n`. -/
theorem gcd_zero_left (n : Nat) : gcd 0 n = 1 := by
  by_cases h : 0 < n
  · simp only [gcd, get_ordering, if_pos h]
    rfl
  · have hn : n = 0 := by omega
    subst hn
    rfl

/-- Symmetric version of `gcd_zero_left`: `get_ordering n 0` always yields
`(0, n)` over `Nat`, so the loop never runs. -/
theorem gcd_zero_right (n : Nat) : gcd n 0 = 1 := by
  simp only [gcd, get_ordering, Nat.not_lt_zero, if_neg (Nat.not_lt_zero n)]
  rfl

theorem intCmp_eq_iff (x y : Int) : intCmp x y = .eq ↔ x = y := by
  unfold intCmp
  by_cases h1 : x < y
  · simp [h1]
    omega
  · by_cases h2 : x = y <;> simp [h1, h2]

theorem intCmp_lt_iff (x y : Int) : intCmp x y = .lt ↔ x < y := by
  unfold intCmp
  by_cases h1 : x < y
  · simp [h1]
  · by_cases h2 : x = y <;> simp [h1, h2]

theorem beq_true_iff (a b : Fraction) :
    Fraction.beq a b = true ↔
      a.numerator * (b.denominator : Int) = b.numerator * (a.denominator : Int) := by
  rw [← intCmp_eq_iff]
  unfold Fraction.beq Fraction.cmp
  rcases intCmp (a.numerator * (b.denominator : Int)) (b.numerator * (a.denominator : Int)) with
    _ | _ | _ <;> simp

/-- Cross-multiplication equality decides value equality for positive
denominators. -/
theorem beq_iff_val (a b : Fraction) (ha : 0 < a.denominator) (hb : 0 < b.denominator) :
    Fraction.beq a b = true ↔ a.val = b.val := by
  rw [beq_true_iff]
  unfold Fraction.val
  rw [div_eq_div_iff (by exact_mod_cast ha.ne') (by exact_mod_cast hb.ne')]
  constructor
  · intro h
    exact_mod_cast h
  · intro h
    exact_mod_cast h

/-- Cross-multiplication `Less` decides value order for positive denominators. -/
theorem cmp_lt_iff_val (a b : Fraction) (ha : 0 < a.denominator) (hb : 0 < b.denominator) :
    Fraction.cmp a b = .lt ↔ a.val < b.val := by
  unfold Fraction.cmp
  rw [intCmp_lt_iff]
  unfold Fraction.val
  rw [div_lt_div_iff₀ (by exact_mod_cast ha) (by exact_mod_cast hb)]
  constructor
  · intro h
    exact_mod_cast h
  · intro h
    exact_mod_cast h

/-- Simplifying a zero-numerator fraction leaves it untouched, because the
crate's `gcd (0, d)` is `1`. -/
theorem simplify_of_zero (d : Nat) : Fraction.simplify ⟨0, d⟩ = ⟨0, d⟩ := by
  simp only [Fraction.simplify, Int.natAbs_zero, gcd_zero_left, Nat.cast_one,
    Int.zero_tdiv, Nat.div_one]

/-- For a nonzero numerator and denominator, `simplify` divides by the
mathematical gcd. -/
theorem simplify_eq_of_ne (n : Int) (d : Nat) (hn : n ≠ 0) (hd : d ≠ 0) :
    Fraction.simplify ⟨n, d⟩ =
      ⟨Int.tdiv n (Nat.gcd n.natAbs d : Int), d / Nat.gcd n.natAbs d⟩ := by
  simp only [Fraction.simplify]
  rw [gcd_of_pos _ _ (Int.natAbs_pos.mpr hn) (Nat.pos_of_ne_zero hd)]

theorem simplify_coprime (n : Int) (d : Nat) (hn : n ≠ 0) (hd : d ≠ 0) :
    Nat.gcd (Fraction.simplify ⟨n, d⟩).numerator.natAbs
      (Fraction.simplify ⟨n, d⟩).denominator = 1 := by
  rw [simplify_eq_of_ne n d hn hd]
  have hg : 0 < Nat.gcd n.natAbs d := Nat.gcd_pos_of_pos_left _ (Int.natAbs_pos.mpr hn)
  show Nat.gcd (Int.tdiv n (Nat.gcd n.natAbs d : Int)).natAbs (d / Nat.gcd n.natAbs d) = 1
  rw [Int.natAbs_tdiv, Int.natAbs_ofNat]
  exact Nat.coprime_div_gcd_div_gcd hg

theorem simplify_den_pos (n : Int) (d : Nat) (hd : d ≠ 0) :
    0 < (Fraction.simplify ⟨n, d⟩).denominator := by
  by_cases hn : n = 0
  · subst hn
    rw [simplify_of_zero]
    show 0 < d
    omega
  · rw [simplify_eq_of_ne n d hn hd]
    show 0 < d / Nat.gcd n.natAbs d
    exact Nat.div_pos (Nat.le_of_dvd (by omega) (Nat.gcd_dvd_right _ _))
      (Nat.gcd_pos_of_pos_left _ (Int.natAbs_pos.mpr hn))

theorem simplify_val (n : Int) (d : Nat) (hd : d ≠ 0) :
    (Fraction.simplify ⟨n, d⟩).val = (Fraction.mk n d).val := by
  by_cases hn : n = 0
  · subst hn
    rw [simplify_of_zero]
  · rw [simplify_eq_of_ne n d hn hd]
    have hg : 0 < Nat.gcd n.natAbs d := Nat.gcd_pos_of_pos_left _ (Int.natAbs_pos.mpr hn)
    have hgd : Nat.gcd n.natAbs d ∣ d := Nat.gcd_dvd_right _ _
    have hgn : ((Nat.gcd n.natAbs d : Nat) : Int) ∣ n :=
      dvd_trans (Int.natCast_dvd_natCast.mpr (Nat.gcd_dvd_left _ _))
        (Int.natAbs_dvd.mpr dvd_rfl)
    have hmul : ((Nat.gcd n.natAbs d : Nat) : Int) * Int.tdiv n (Nat.gcd n.natAbs d : Int) = n :=
      Int.mul_tdiv_cancel' hgn
    have hdmul : Nat.gcd n.natAbs d * (d / Nat.gcd n.natAbs d) = d := Nat.mul_div_cancel' hgd
    unfold Fraction.val
    show ((Int.tdiv n (Nat.gcd n.natAbs d : Int) : Int) : ℚ) / ((d / Nat.gcd n.natAbs d : Nat) : ℚ)
      = (n : ℚ) / (d : ℚ)
    have hepos : 0 < d / Nat.gcd n.natAbs d :=
      Nat.div_pos (Nat.le_of_dvd (by omega) hgd) hg
    rw [div_eq_div_iff (by exact_mod_cast hepos.ne') (by exact_mod_cast hd)]
    have hZ : Int.tdiv n (Nat.gcd n.natAbs d : Int) * (d : Int)
        = n * ((d / Nat.gcd n.natAbs d : Nat) : Int) := by
      have hdZ : ((Nat.gcd n.natAbs d : Nat) : Int) * ((d / Nat.gcd n.natAbs d : Nat) : Int)
          = (d : Int) := by
        exact_mod_cast hdmul
      calc Int.tdiv n (Nat.gcd n.natAbs d : Int) * (d : Int)
          = Int.tdiv n (Nat.gcd n.natAbs d : Int)
            * (((Nat.gcd n.natAbs d : Nat) : Int) * ((d / Nat.gcd n.natAbs d : Nat) : Int)) := by
            rw [hdZ]
        _ = (((Nat.gcd n.natAbs d : Nat) : Int) * Int.tdiv n (Nat.gcd n.natAbs d : Int))
            * ((d / Nat.gcd n.natAbs d : Nat) : Int) := by ring
        _ = n * ((d / Nat.gcd n.natAbs d : Nat) : Int) := by rw [hmul]
    qify at hZ
    exact hZ

/-- `Fraction::new` on a nonzero denominator is `simplify` of the raw pair. -/
theorem new_eq_ok (n : Int) (d : Nat) (hd : d ≠ 0) :
    Fraction.new n d = .ok (Fraction.simplify ⟨n, d⟩) := by
  unfold Fraction.new Fraction.unsimplified_new
  rw [if_neg hd]

/-- **C1** (amended).  For every numerator `n` and nonzero denominator `d`,
`Fraction::new n d` succeeds and returns `simplify (n, d)`; simplification
preserves the denoted rational value and keeps the denominator positive;
and whenever `n ≠ 0` the simplified components are coprime.  The
coprimality clause genuinely requires `n ≠ 0`: the crate's `gcd` returns
`1` when its smaller argument is `0`, so `simplify (0, d) = (0, d)` (see
`C1_counterexample`). -/
theorem C1_simplify_correct (n : Int) (d : Nat) (hd : d ≠ 0) :
    Fraction.new n d = .ok (Fraction.simplify ⟨n, d⟩) ∧
    (Fraction.simplify ⟨n, d⟩).val = (Fraction.mk n d).val ∧
    0 < (Fraction.simplify ⟨n, d⟩).denominator ∧
    (n ≠ 0 →
      Nat.gcd (Fraction.simplify ⟨n, d⟩).numerator.natAbs
        (Fraction.simplify ⟨n, d⟩).denominator = 1) :=
  ⟨new_eq_ok n d hd, simplify_val n d hd, simplify_den_pos n d hd,
    fun hn => simplify_coprime n d hn hd⟩

theorem C1_simplify_correct_witness :
    (4 : Nat) ≠ 0 ∧
    (Fraction.new (-2) 4 = .ok (Fraction.simplify ⟨-2, 4⟩) ∧
      (Fraction.simplify ⟨-2, 4⟩).val = (Fraction.mk (-2) 4).val ∧
      0 < (Fraction.simplify ⟨-2, 4⟩).denominator ∧
      ((-2 : Int) ≠ 0 →
        Nat.gcd (Fraction.simplify ⟨-2, 4⟩).numerator.natAbs
          (Fraction.simplify ⟨-2, 4⟩).denominator = 1)) :=
  ⟨by decide, C1_simplify_correct (-2) 4 (by decide)⟩

/-- **C1 counterexample**: at numerator `0`, denominator `2`, `simplify`
returns `(0, 2)`, whose components have gcd `2`, not `1` — the claim as
stated fails. -/
theorem C1_counterexample :
    Fraction.simplify ⟨0, 2⟩ = ⟨0, 2⟩ ∧
    Nat.gcd (Fraction.simplify ⟨0, 2⟩).numerator.natAbs
      (Fraction.simplify ⟨0, 2⟩).denominator ≠ 1 := by
  decide

/-- **C2** (amended).  On positive inputs the crate's `gcd` computes the
greatest common divisor: it divides both arguments and every common divisor
is at most it.  But on a zero argument it returns `1` (the loop guard
`i <= small` fails immediately when the smaller argument is `0`), not the
other argument as the mathematical convention `gcd 0 n = n` would demand. -/
theorem C2_gcd_behavior (a b n : Nat) :
    (1 ≤ a → 1 ≤ b →
      gcd a b = Nat.gcd a b ∧ gcd a b ∣ a ∧ gcd a b ∣ b ∧
        ∀ c, c ∣ a → c ∣ b → c ≤ gcd a b) ∧
    gcd 0 n = 1 ∧ gcd n 0 = 1 := by
  refine ⟨fun ha hb => ?_, gcd_zero_left n, gcd_zero_right n⟩
  rw [gcd_of_pos a b ha hb]
  refine ⟨rfl, Nat.gcd_dvd_left _ _, Nat.gcd_dvd_right _ _, fun c hca hcb => ?_⟩
  exact Nat.le_of_dvd (Nat.gcd_pos_of_pos_left _ ha) (Nat.dvd_gcd hca hcb)

theorem C2_gcd_behavior_witness :
    (1 ≤ 4 ∧ 1 ≤ 6) ∧ (gcd 4 6 = Nat.gcd 4 6 ∧ gcd 0 5 = 1) :=
  ⟨⟨by decide, by decide⟩,
    ⟨((C2_gcd_behavior 4 6 5).1 (by decide) (by decide)).1, (C2_gcd_behavior 4 6 5).2.1⟩⟩

/-- **C2 counterexample**: the claim `gcd 0 n = n` fails at `n = 5` — the
crate's `gcd` returns `1`, which is also not the largest common divisor of
`0` and `5` (that would be `5`, since every integer divides `0`). -/
theorem C2_counterexample : gcd 0 5 = 1 ∧ gcd 0 5 ≠ 5 ∧ (5 ∣ 0 ∧ 5 ∣ 5) := by
  decide

/-- `i32::cmp` is invariant under scaling both sides by a positive factor. -/
theorem intCmp_mul_left (k x y : Int) (hk : 0 < k) :
    intCmp (k * x) (k * y) = intCmp x y := by
  unfold intCmp
  by_cases h1 : x < y
  · rw [if_pos h1, if_pos (mul_lt_mul_of_pos_left h1 hk)]
  · have h1' : ¬k * x < k * y := fun hc => h1 (lt_of_mul_lt_mul_left hc (le_of_lt hk))
    rw [if_neg h1', if_neg h1]
    by_cases h2 : x = y
    · rw [if_pos h2, if_pos (by rw [h2])]
    · have h2' : ¬k * x = k * y := fun hc => h2 (mul_left_cancel₀ (ne_of_gt hk) hc)
      rw [if_neg h2', if_neg h2]

/-- **C5**.  Comparison of fractions is by integer cross-multiplication:
`cmp` of `a/b` and `c/d` is the `i32` comparison of `a*d` with `c*b`.  For
positive denominators this decides rational-value equality and order, and
the two raw representations `1/2` and `2/4` of one value compare equal and
order identically against every fraction. -/
theorem C5_cross_mul_comparison (a b : Fraction)
    (ha : 0 < a.denominator) (hb : 0 < b.denominator) :
    Fraction.cmp a b
      = intCmp (a.numerator * (b.denominator : Int)) (b.numerator * (a.denominator : Int)) ∧
    (Fraction.beq a b = true ↔ a.val = b.val) ∧
    (Fraction.cmp a b = .lt ↔ a.val < b.val) ∧
    Fraction.beq ⟨1, 2⟩ ⟨2, 4⟩ = true ∧
    (∀ c : Fraction, Fraction.cmp ⟨1, 2⟩ c = Fraction.cmp ⟨2, 4⟩ c) := by
  refine ⟨rfl, beq_iff_val a b ha hb, cmp_lt_iff_val a b ha hb, by decide, fun c => ?_⟩
  show intCmp ((1 : Int) * (c.denominator : Int)) (c.numerator * ((2 : Nat) : Int))
    = intCmp ((2 : Int) * (c.denominator : Int)) (c.numerator * ((4 : Nat) : Int))
  rw [← intCmp_mul_left 2 ((1 : Int) * (c.denominator : Int)) (c.numerator * ((2 : Nat) : Int))
    (by norm_num)]
  rw [show (2 : Int) * ((1 : Int) * (c.denominator : Int)) = (2 : Int) * (c.denominator : Int)
    by ring]
  rw [show (2 : Int) * (c.numerator * ((2 : Nat) : Int)) = c.numerator * ((4 : Nat) : Int)
    by push_cast; ring]

theorem C5_cross_mul_comparison_witness : Fraction.beq ⟨1, 2⟩ ⟨2, 4⟩ = true :=
  (C5_cross_mul_comparison ⟨1, 2⟩ ⟨2, 4⟩ (by decide) (by decide)).2.2.2.1

theorem reciprocal_err_iff (f : Fraction) : f.reciprocal = .error .mk ↔ f.numerator = 0 := by
  unfold Fraction.reciprocal Fraction.unsimplified_new
  by_cases hn : f.numerator.natAbs = 0
  · rw [if_pos hn]
    simp [Int.natAbs_eq_zero.mp hn]
  · rw [if_neg hn]
    simp only [reduceCtorEq, false_iff]
    exact fun h => hn (by rw [h]; rfl)

theorem reciprocal_ok (f : Fraction) (hn : f.numerator ≠ 0) :
    f.reciprocal = .ok ⟨(f.denominator : Int) * Int.sign f.numerator, f.numerator.natAbs⟩ := by
  unfold Fraction.reciprocal Fraction.unsimplified_new
  rw [if_neg (fun h => hn (Int.natAbs_eq_zero.mp h))]

theorem expectOk_reciprocal_den_pos (f : Fraction) (hn : f.numerator ≠ 0) :
    0 < (expectOk f.reciprocal).denominator := by
  rw [reciprocal_ok f hn]
  exact Int.natAbs_pos.mpr hn

theorem expectOk_reciprocal_val (f : Fraction) (hn : f.numerator ≠ 0) :
    (expectOk f.reciprocal).val = f.val⁻¹ := by
  rw [reciprocal_ok f hn]
  show Fraction.val ⟨(f.denominator : Int) * Int.sign f.numerator, f.numerator.natAbs⟩
    = f.val⁻¹
  unfold Fraction.val
  rw [inv_div]
  push_cast [Int.cast_natAbs]
  rcases lt_trichotomy f.numerator 0 with h | h | h
  · rw [Int.sign_eq_neg_one_iff_neg.mpr h]
    have hq : (f.numerator : ℚ) < 0 := by exact_mod_cast h
    rw [abs_of_neg hq]
    have hq' : (f.numerator : ℚ) ≠ 0 := ne_of_lt hq
    field_simp
  · exact absurd h hn
  · rw [Int.sign_eq_one_iff_pos.mpr h]
    have hq : (0 : ℚ) < (f.numerator : ℚ) := by exact_mod_cast h
    rw [abs_of_pos hq]
    push_cast
    ring_nf

/-- **C7**.  For a valid fraction, `reciprocal` fails with `DivByZeroError`
exactly when the numerator is `0`; otherwise it returns the components
swapped, the original numerator's sign carried on the new numerator, the
returned denominator (`|numerator|`) positive, and the value inverted. -/
theorem C7_reciprocal (f : Fraction) (_hd : 0 < f.denominator) :
    (f.reciprocal = .error .mk ↔ f.numerator = 0) ∧
    (f.numerator ≠ 0 →
      f.reciprocal = .ok ⟨(f.denominator : Int) * Int.sign f.numerator, f.numerator.natAbs⟩ ∧
      0 < f.numerator.natAbs ∧
      (expectOk f.reciprocal).val = f.val⁻¹) :=
  ⟨reciprocal_err_iff f, fun hn =>
    ⟨reciprocal_ok f hn, Int.natAbs_pos.mpr hn, expectOk_reciprocal_val f hn⟩⟩

theorem C7_reciprocal_witness :
    Fraction.reciprocal ⟨3, 7⟩
      = .ok ⟨((7 : Nat) : Int) * Int.sign 3, (3 : Int).natAbs⟩ :=
  ((C7_reciprocal ⟨3, 7⟩ (by decide)).2 (by decide)).1

/-- `expectOk` of `Fraction::new` on a nonzero denominator is `simplify`. -/
theorem expectOk_new (n : Int) (d : Nat) (hd : d ≠ 0) :
    expectOk (Fraction.new n d) = Fraction.simplify ⟨n, d⟩ := by
  rw [new_eq_ok n d hd]
  rfl

/-- Arithmetic core of `Add for Fraction`: combining over the common
denominator `da * db / gcd da db` with proportionally scaled numerators
produces the sum of the two rational values. -/
theorem add_val_aux (na nb : Int) (da db : Nat) (hda : 0 < da) (hdb : 0 < db) :
    ((na * ((db / Nat.gcd da db : Nat) : Int) + nb * ((da / Nat.gcd da db : Nat) : Int) : Int) : ℚ)
      / ((da * db / Nat.gcd da db : Nat) : ℚ)
    = (na : ℚ) / (da : ℚ) + (nb : ℚ) / (db : ℚ) := by
  set G := Nat.gcd da db with hGdef
  have hGpos : 0 < G := Nat.gcd_pos_of_pos_left _ hda
  have hdvda : G ∣ da := Nat.gcd_dvd_left da db
  have hdvdb : G ∣ db := Nat.gcd_dvd_right da db
  obtain ⟨x, hx⟩ := hdvda
  obtain ⟨y, hy⟩ := hdvdb
  have hxpos : 0 < x := by
    rcases Nat.eq_zero_or_pos x with h0 | h
    · rw [h0, Nat.mul_zero] at hx
      omega
    · exact h
  have hypos : 0 < y := by
    rcases Nat.eq_zero_or_pos y with h0 | h
    · rw [h0, Nat.mul_zero] at hy
      omega
    · exact h
  have had : da / G = x := by
    rw [hx, Nat.mul_div_cancel_left _ hGpos]
  have hbd : db / G = y := by
    rw [hy, Nat.mul_div_cancel_left _ hGpos]
  have hDEN : da * db / G = G * x * y := by
    rw [hx, hy, show G * x * (G * y) = G * (G * x * y) by ring,
      Nat.mul_div_cancel_left _ hGpos]
  rw [had, hbd, hDEN, hx, hy]
  have hGQ : ((G : Nat) : ℚ) ≠ 0 := by exact_mod_cast hGpos.ne'
  have hxQ : ((x : Nat) : ℚ) ≠ 0 := by exact_mod_cast hxpos.ne'
  have hyQ : ((y : Nat) : ℚ) ≠ 0 := by exact_mod_cast hypos.ne'
  push_cast
  field_simp
  ring

theorem add_raw_den_pos (a b : Fraction) (ha : 0 < a.denominator) (hb : 0 < b.denominator) :
    0 < a.denominator * b.denominator / Nat.gcd a.denominator b.denominator :=
  Nat.div_pos
    (Nat.le_of_dvd (Nat.mul_pos ha hb) (Dvd.dvd.mul_right (Nat.gcd_dvd_left _ _) _))
    (Nat.gcd_pos_of_pos_left _ ha)

/-- On valid operands, `Add for Fraction` is `simplify` of the raw
common-denominator combination. -/
theorem add_eq (a b : Fraction) (ha : 0 < a.denominator) (hb : 0 < b.denominator) :
    a.add b = Fraction.simplify
      ⟨a.numerator * ((b.denominator / Nat.gcd a.denominator b.denominator : Nat) : Int)
        + b.numerator * ((a.denominator / Nat.gcd a.denominator b.denominator : Nat) : Int),
        a.denominator * b.denominator / Nat.gcd a.denominator b.denominator⟩ := by
  unfold Fraction.add
  rw [gcd_of_pos _ _ ha hb, expectOk_new _ _ (add_raw_den_pos a b ha hb).ne']

theorem add_den_pos (a b : Fraction) (ha : 0 < a.denominator) (hb : 0 < b.denominator) :
    0 < (a.add b).denominator := by
  rw [add_eq a b ha hb]
  exact simplify_den_pos _ _ (add_raw_den_pos a b ha hb).ne'

theorem add_val (a b : Fraction) (ha : 0 < a.denominator) (hb : 0 < b.denominator) :
    (a.add b).val = a.val + b.val := by
  rw [add_eq a b ha hb, simplify_val _ _ (add_raw_den_pos a b ha hb).ne']
  unfold Fraction.val
  exact add_val_aux a.numerator b.numerator a.denominator b.denominator ha hb

theorem add_coprime (a b : Fraction) (ha : 0 < a.denominator) (hb : 0 < b.denominator)
    (hnum : (a.add b).numerator ≠ 0) :
    Nat.gcd (a.add b).numerator.natAbs (a.add b).denominator = 1 := by
  rw [add_eq a b ha hb] at hnum ⊢
  by_cases h0 : a.numerator * ((b.denominator / Nat.gcd a.denominator b.denominator : Nat) : Int)
      + b.numerator * ((a.denominator / Nat.gcd a.denominator b.denominator : Nat) : Int) = 0
  · rw [h0] at hnum ⊢
    rw [simplify_of_zero] at hnum
    exact absurd rfl hnum
  · exact simplify_coprime _ _ h0 (add_raw_den_pos a b ha hb).ne'

/-- **C6** (amended).  For valid operands, `Add for Fraction` combines over
the common denominator `lcm(b, d) = b * d / gcd(b, d)` with proportionally
scaled numerators and returns the simplified sum: positive denominator,
value `a + b`, components coprime whenever the resulting numerator is
nonzero, and in particular `10/3 + (-4)/5 = 38/15`.  (Coprimality can fail
when the sum is zero — see `C6_counterexample` — because the crate's
`gcd (0, d)` is `1`.) -/
theorem C6_add_correct (a b : Fraction) (ha : 0 < a.denominator) (hb : 0 < b.denominator) :
    a.add b = expectOk (Fraction.new
      (a.numerator * ((b.denominator / Nat.gcd a.denominator b.denominator : Nat) : Int)
        + b.numerator * ((a.denominator / Nat.gcd a.denominator b.denominator : Nat) : Int))
      (Nat.lcm a.denominator b.denominator)) ∧
    0 < (a.add b).denominator ∧
    (a.add b).val = a.val + b.val ∧
    ((a.add b).numerator ≠ 0 →
      Nat.gcd (a.add b).numerator.natAbs (a.add b).denominator = 1) ∧
    Fraction.add ⟨10, 3⟩ ⟨-4, 5⟩ = ⟨38, 15⟩ := by
  refine ⟨?_, add_den_pos a b ha hb, add_val a b ha hb, add_coprime a b ha hb, by decide⟩
  unfold Fraction.add
  rw [gcd_of_pos _ _ ha hb]
  rfl

theorem C6_add_correct_witness : Fraction.add ⟨10, 3⟩ ⟨-4, 5⟩ = ⟨38, 15⟩ :=
  (C6_add_correct ⟨10, 3⟩ ⟨-4, 5⟩ (by decide) (by decide)).2.2.2.2

/-- **C6 counterexample**: `1/2 + (-1/2)` returns the raw pair `(0, 2)`,
whose components are not coprime — the claim's "returned fraction is
simplified (coprime components)" fails when the sum's numerator is `0`. -/
theorem C6_counterexample :
    Fraction.add ⟨1, 2⟩ ⟨-1, 2⟩ = ⟨0, 2⟩ ∧
    Nat.gcd (Fraction.add ⟨1, 2⟩ ⟨-1, 2⟩).numerator.natAbs
      (Fraction.add ⟨1, 2⟩ ⟨-1, 2⟩).denominator ≠ 1 := by
  decide

theorem toDigitsRev_lt (fuel : Nat) : ∀ n d, d ∈ toDigitsRev fuel n → d < 10 := by
  induction fuel with
  | zero =>
    intro n d hd
    simp [toDigitsRev] at hd
  | succ fuel ih =>
    intro n d hd
    by_cases h : n = 0
    · simp [toDigitsRev, h] at hd
    · rw [toDigitsRev, if_neg h] at hd
      rcases List.mem_cons.mp hd with h1 | h1
      · subst h1
        exact Nat.mod_lt _ (by omega)
      · exact ih _ _ h1

theorem toDigitsRev_foldl (fuel : Nat) : ∀ n acc, n ≤ fuel →
    List.foldl (fun a d => 10 * a + d) acc (toDigitsRev fuel n).reverse
      = acc * 10 ^ (toDigitsRev fuel n).length + n := by
  induction fuel with
  | zero =>
    intro n acc h
    have hn : n = 0 := by omega
    subst hn
    simp [toDigitsRev]
  | succ fuel ih =>
    intro n acc h
    by_cases h0 : n = 0
    · subst h0
      simp [toDigitsRev]
    · rw [toDigitsRev, if_neg h0]
      rw [List.reverse_cons, List.foldl_append, List.length_cons]
      rw [ih (n / 10) acc (by omega)]
      rw [List.foldl_cons, List.foldl_nil, pow_succ]
      calc 10 * (acc * 10 ^ (toDigitsRev fuel (n / 10)).length + n / 10) + n % 10
          = acc * (10 ^ (toDigitsRev fuel (n / 10)).length * 10) + (10 * (n / 10) + n % 10) := by
            ring
        _ = acc * (10 ^ (toDigitsRev fuel (n / 10)).length * 10) + n := by
            rw [Nat.div_add_mod]

theorem charDigit_digitChar (d : Nat) (hd : d < 10) : charDigit (digitChar d) = some d := by
  interval_cases d <;> decide

theorem digitChar_range (d : Nat) (hd : d < 10) :
    48 ≤ (digitChar d).toNat ∧ (digitChar d).toNat ≤ 57 := by
  interval_cases d <;> decide

theorem parseNatCore_map (ds : List Nat) : ∀ acc, (∀ d ∈ ds, d < 10) →
    parseNatCore (ds.map digitChar) acc
      = some (List.foldl (fun a d => 10 * a + d) acc ds) := by
  induction ds with
  | nil =>
    intro acc h
    rfl
  | cons d rest ih =>
    intro acc h
    have hd : d < 10 := h d (List.mem_cons_self d rest)
    rw [List.map_cons, parseNatCore, charDigit_digitChar d hd, List.foldl_cons]
    exact ih _ (fun x hx => h x (List.mem_cons_of_mem _ hx))

theorem natChars_digits (n : Nat) : ∀ c ∈ natChars n, 48 ≤ c.toNat ∧ c.toNat ≤ 57 := by
  unfold natChars
  by_cases h : n = 0
  · rw [if_pos h]
    intro c hc
    rcases List.mem_singleton.mp hc with rfl
    decide
  · rw [if_neg h]
    intro c hc
    obtain ⟨d, hd, rfl⟩ := List.mem_map.mp (List.mem_reverse.mp hc)
    exact digitChar_range d (toDigitsRev_lt n n d hd)

theorem natChars_ne_nil (n : Nat) : natChars n ≠ [] := by
  unfold natChars
  by_cases h : n = 0
  · rw [if_pos h]
    simp
  · rw [if_neg h]
    cases n with
    | zero => exact absurd rfl h
    | succ m =>
      rw [toDigitsRev, if_neg h]
      simp

theorem parse_natChars (n : Nat) : parseNatCore (natChars n) 0 = some n := by
  by_cases h : n = 0
  · subst h
    decide
  · unfold natChars
    rw [if_neg h, ← List.map_reverse,
      parseNatCore_map _ 0 (fun d hd => toDigitsRev_lt n n d (List.mem_reverse.mp hd)),
      toDigitsRev_foldl n n 0 le_rfl]
    simp

theorem parseNatRaw_natChars (n : Nat) : parseNatRaw (natChars n) = some n := by
  rcases hl : natChars n with _ | ⟨c, rest⟩
  · exact absurd hl (natChars_ne_nil n)
  · rw [parseNatRaw, ← hl]
    exact parse_natChars n

theorem intChars_chars (n : Int) :
    ∀ c ∈ intChars n, c.toNat = 45 ∨ (48 ≤ c.toNat ∧ c.toNat ≤ 57) := by
  unfold intChars
  by_cases h : n < 0
  · rw [if_pos h]
    intro c hc
    rcases List.mem_cons.mp hc with rfl | hc
    · left
      rfl
    · right
      exact natChars_digits _ c hc
  · rw [if_neg h]
    intro c hc
    right
    exact natChars_digits _ c hc

theorem parseI32_intChars (n : Int) (hlo : -(2 ^ 31) ≤ n) (hhi : n < 2 ^ 31) :
    parseI32 (intChars n) = some n := by
  by_cases h : n < 0
  · rw [show intChars n = '-' :: natChars n.natAbs from by unfold intChars; rw [if_pos h]]
    rw [parseI32, if_pos rfl, parseNatRaw_natChars]
    show (if n.natAbs ≤ 2 ^ 31 then some (-(n.natAbs : Int)) else none) = some n
    rw [if_pos (show n.natAbs ≤ 2 ^ 31 by omega)]
    congr 1
    omega
  · obtain ⟨c, rest, hcr⟩ : ∃ c rest, natChars n.natAbs = c :: rest := by
      rcases hl : natChars n.natAbs with _ | ⟨c, rest⟩
      · exact absurd hl (natChars_ne_nil _)
      · exact ⟨c, rest, rfl⟩
    have hdig := natChars_digits n.natAbs c (by rw [hcr]; exact List.mem_cons_self c rest)
    have hcm : ¬c = '-' := by
      intro hceq
      subst hceq
      revert hdig
      decide
    have hcp : ¬c = '+' := by
      intro hceq
      subst hceq
      revert hdig
      decide
    rw [show intChars n = natChars n.natAbs from by unfold intChars; rw [if_neg h]]
    rw [hcr, parseI32, if_neg hcm, if_neg hcp, ← hcr, parseNatRaw_natChars]
    show (if n.natAbs < 2 ^ 31 then some ((n.natAbs : Nat) : Int) else none) = some n
    rw [if_pos (show n.natAbs < 2 ^ 31 by omega)]
    congr 1
    omega

theorem parseU32_natChars (d : Nat) (hd : d < 2 ^ 32) : parseU32 (natChars d) = some d := by
  obtain ⟨c, rest, hcr⟩ : ∃ c rest, natChars d = c :: rest := by
    rcases hl : natChars d with _ | ⟨c, rest⟩
    · exact absurd hl (natChars_ne_nil _)
    · exact ⟨c, rest, rfl⟩
  have hdig := natChars_digits d c (by rw [hcr]; exact List.mem_cons_self c rest)
  have hcp : ¬c = '+' := by
    intro hceq
    subst hceq
    revert hdig
    decide
  have hsp : stripPlus (natChars d) = natChars d := by
    rw [hcr, stripPlus, if_neg hcp]
  rw [parseU32, hsp, parseNatRaw_natChars]
  show (if d < 2 ^ 32 then some d else none) = some d
  rw [if_pos hd]

theorem splitOnce_append (sep : Char) (xs ys : List Char) (h : sep ∉ xs) :
    splitOnce sep (xs ++ sep :: ys) = some (xs, ys) := by
  induction xs with
  | nil =>
    rw [List.nil_append, splitOnce, if_pos rfl]
  | cons c rest ih =>
    rw [List.cons_append, splitOnce,
      if_neg (fun hc => h (by rw [hc]; exact List.mem_cons_self _ _)),
      ih (fun hm => h (List.mem_cons_of_mem _ hm))]
    rfl

theorem dropWhile_eq_self (p : Char → Bool) (s : List Char) (h : ∀ c ∈ s, p c = false) :
    s.dropWhile p = s := by
  cases s with
  | nil => rfl
  | cons c rest =>
    rw [List.dropWhile_cons, h c (List.mem_cons_self c rest)]
    simp

theorem trimChars_eq_self (s : List Char) (h : ∀ c ∈ s, isRustWhitespace c = false) :
    trimChars s = s := by
  unfold trimChars
  rw [dropWhile_eq_self _ s h,
    dropWhile_eq_self _ s.reverse (fun c hc => h c (List.mem_reverse.mp hc)),
    List.reverse_reverse]

theorem not_ws_of_toNat_range (c : Char) (h1 : 43 ≤ c.toNat) (h2 : c.toNat ≤ 57) :
    isRustWhitespace c = false := by
  unfold isRustWhitespace
  simp only [Bool.or_eq_false_iff, beq_eq_false_iff_ne, ne_eq]
  omega

/-- **C4** (amended).  For a valid fraction whose denominator is not `1`
(and whose components fit the source's `i32`/`u32` widths), parsing the
display rendering succeeds, returning the simplified fraction, which is
equal to the original under the crate's value equality
(cross-multiplication).  For denominator `1` the claim fails: display
renders a bare integer with no `/`, which `from_str` rejects — see
`C4_counterexample`. -/
theorem C4_round_trip (f : Fraction) (hpos : 0 < f.denominator)
    (hne1 : f.denominator ≠ 1) (hlo : -(2 ^ 31) ≤ f.numerator)
    (hhi : f.numerator < 2 ^ 31) (hd32 : f.denominator < 2 ^ 32) :
    from_str (fmtFraction f) = .ok (Fraction.simplify f) ∧
    Fraction.beq (Fraction.simplify f) f = true := by
  have hfmt : fmtFraction f = intChars f.numerator ++ '/' :: natChars f.denominator := by
    unfold fmtFraction
    rw [if_pos hne1]
  have hsplit : splitOnce '/' (fmtFraction f)
      = some (intChars f.numerator, natChars f.denominator) := by
    rw [hfmt]
    apply splitOnce_append
    intro hm
    rcases intChars_chars f.numerator _ hm with h45 | hdig
    · exact absurd h45 (by decide)
    · revert hdig
      decide
  have htrimN : trimChars (intChars f.numerator) = intChars f.numerator :=
    trimChars_eq_self _ (fun c hc => by
      rcases intChars_chars f.numerator c hc with h45 | hdig
      · exact not_ws_of_toNat_range c (by omega) (by omega)
      · exact not_ws_of_toNat_range c (by omega) (by omega))
  have htrimD : trimChars (natChars f.denominator) = natChars f.denominator :=
    trimChars_eq_self _ (fun c hc => by
      have hdig := natChars_digits f.denominator c hc
      exact not_ws_of_toNat_range c (by omega) (by omega))
  have hpN : parseI32 (intChars f.numerator) = some f.numerator :=
    parseI32_intChars _ hlo hhi
  have hpD : parseU32 (natChars f.denominator) = some f.denominator :=
    parseU32_natChars _ hd32
  have hsval : (Fraction.simplify f).val = f.val := simplify_val f.numerator f.denominator hpos.ne'
  have hsden : 0 < (Fraction.simplify f).denominator :=
    simplify_den_pos f.numerator f.denominator hpos.ne'
  constructor
  · have h1 : from_str (fmtFraction f)
        = from_str_parts (intChars f.numerator) (natChars f.denominator) := by
      rw [from_str, hsplit]
    rw [h1, from_str_parts, htrimN, htrimD, hpN, hpD]
    show (match Fraction.new f.numerator f.denominator with
      | Except.ok g => (Except.ok g : Except ParseFractionError Fraction)
      | Except.error _ => Except.error ParseFractionError.mk)
      = Except.ok (Fraction.simplify f)
    rw [new_eq_ok _ _ hpos.ne']
  · exact (beq_iff_val _ _ hsden hpos).mpr hsval

theorem C4_round_trip_witness :
    from_str (fmtFraction ⟨-21, 6⟩) = .ok (Fraction.simplify ⟨-21, 6⟩) ∧
    Fraction.beq (Fraction.simplify ⟨-21, 6⟩) ⟨-21, 6⟩ = true :=
  C4_round_trip ⟨-21, 6⟩ (by decide) (by decide) (by decide) (by decide) (by decide)

/-- **C4 counterexample**: the valid fraction `5/1` renders as the bare
integer `"5"`, which contains no `/`, so parsing its rendering yields
`ParseFractionError`, not `Ok` — the round trip fails for denominator `1`. -/
theorem C4_counterexample :
    fmtFraction ⟨5, 1⟩ = ['5'] ∧ from_str (fmtFraction ⟨5, 1⟩) = .error .mk :=
  ⟨by decide, rfl⟩

theorem neg_den (f : Fraction) : f.neg.denominator = f.denominator := rfl

theorem neg_val (f : Fraction) : f.neg.val = -f.val := by
  unfold Fraction.neg Fraction.unchecked_new Fraction.val
  push_cast
  rw [neg_div]

theorem mul_den_pos (a b : Fraction) (ha : 0 < a.denominator) (hb : 0 < b.denominator) :
    0 < (a.mul b).denominator := by
  unfold Fraction.mul
  rw [expectOk_new _ _ (Nat.mul_pos ha hb).ne']
  exact simplify_den_pos _ _ (Nat.mul_pos ha hb).ne'

theorem mul_val (a b : Fraction) (ha : 0 < a.denominator) (hb : 0 < b.denominator) :
    (a.mul b).val = a.val * b.val := by
  unfold Fraction.mul
  rw [expectOk_new _ _ (Nat.mul_pos ha hb).ne', simplify_val _ _ (Nat.mul_pos ha hb).ne']
  unfold Fraction.val
  push_cast
  rw [div_mul_div_comm]

theorem sub_den_pos (a b : Fraction) (ha : 0 < a.denominator) (hb : 0 < b.denominator) :
    0 < (a.sub b).denominator := by
  unfold Fraction.sub
  exact add_den_pos a b.neg ha hb

theorem sub_val (a b : Fraction) (ha : 0 < a.denominator) (hb : 0 < b.denominator) :
    (a.sub b).val = a.val - b.val := by
  unfold Fraction.sub
  rw [add_val a b.neg ha hb, neg_val]
  ring

theorem div_den_pos (a b : Fraction) (ha : 0 < a.denominator) (hn : b.numerator ≠ 0) :
    0 < (a.div b).denominator := by
  unfold Fraction.div
  exact mul_den_pos _ _ ha (expectOk_reciprocal_den_pos b hn)

theorem div_val (a b : Fraction) (ha : 0 < a.denominator) (hn : b.numerator ≠ 0) :
    (a.div b).val = a.val / b.val := by
  unfold Fraction.div
  rw [mul_val _ _ ha (expectOk_reciprocal_den_pos b hn), expectOk_reciprocal_val b hn,
    div_eq_mul_inv]

theorem val_ne_zero (f : Fraction) (hd : 0 < f.denominator) (hn : f.numerator ≠ 0) :
    f.val ≠ 0 := by
  unfold Fraction.val
  exact div_ne_zero (by exact_mod_cast hn) (by exact_mod_cast hd.ne')

theorem num_ne_zero_of_val_ne (f : Fraction) (h : f.val ≠ 0) : f.numerator ≠ 0 := by
  intro h0
  apply h
  unfold Fraction.val
  rw [h0]
  simp

/-- **C10**.  When the imaginary component's numerator is `0`, `Display for
Complex` renders exactly the real component's fraction rendering — the
imaginary-zero branch is checked before the real-zero branch — so the zero
complex value renders as `0`, never `0i`. -/
theorem C10_display_zero_imaginary (c : Complex) (h : c.imaginary.numerator = 0) :
    fmtComplex c = fmtFraction c.real ∧
    fmtComplex ⟨⟨0, 1⟩, ⟨0, 1⟩⟩ = ['0'] ∧
    fmtComplex ⟨⟨0, 1⟩, ⟨0, 1⟩⟩ ≠ ['0', 'i'] := by
  refine ⟨?_, by decide, by decide⟩
  unfold fmtComplex
  rw [if_pos h]

theorem C10_display_zero_imaginary_witness :
    fmtComplex ⟨⟨3, 4⟩, ⟨0, 5⟩⟩ = fmtFraction ⟨3, 4⟩ :=
  (C10_display_zero_imaginary ⟨⟨3, 4⟩, ⟨0, 5⟩⟩ rfl).1

theorem mul_complex_spec (x y : Complex) (hx : ComplexValid x) (hy : ComplexValid y) :
    ComplexValid (x.mul y) ∧
    (x.mul y).real.val = x.real.val * y.real.val - x.imaginary.val * y.imaginary.val ∧
    (x.mul y).imaginary.val = x.real.val * y.imaginary.val + x.imaginary.val * y.real.val := by
  obtain ⟨hxr, hxi⟩ := hx
  obtain ⟨hyr, hyi⟩ := hy
  refine ⟨⟨sub_den_pos _ _ (mul_den_pos _ _ hxr hyr) (mul_den_pos _ _ hxi hyi),
    add_den_pos _ _ (mul_den_pos _ _ hxr hyi) (mul_den_pos _ _ hxi hyr)⟩, ?_, ?_⟩
  · show ((x.real.mul y.real).sub (x.imaginary.mul y.imaginary)).val = _
    rw [sub_val _ _ (mul_den_pos _ _ hxr hyr) (mul_den_pos _ _ hxi hyi),
      mul_val _ _ hxr hyr, mul_val _ _ hxi hyi]
  · show ((x.real.mul y.imaginary).add (x.imaginary.mul y.real)).val = _
    rw [add_val _ _ (mul_den_pos _ _ hxr hyi) (mul_den_pos _ _ hxi hyr),
      mul_val _ _ hxr hyi, mul_val _ _ hxi hyr]

/-- The divisor's squared modulus is a nonzero rational whenever some
component has a nonzero numerator. -/
theorem sq_modulus_ne_zero (y : Complex) (hyr : 0 < y.real.denominator)
    (hyi : 0 < y.imaginary.denominator)
    (hnz : ¬(y.real.numerator = 0 ∧ y.imaginary.numerator = 0)) :
    y.real.val * y.real.val + y.imaginary.val * y.imaginary.val ≠ 0 := by
  rcases not_and_or.mp hnz with h | h
  · have h1 : 0 < y.real.val * y.real.val := mul_self_pos.mpr (val_ne_zero y.real hyr h)
    have h2 : 0 ≤ y.imaginary.val * y.imaginary.val := mul_self_nonneg _
    exact ne_of_gt (by linarith)
  · have h1 : 0 < y.imaginary.val * y.imaginary.val :=
      mul_self_pos.mpr (val_ne_zero y.imaginary hyi h)
    have h2 : 0 ≤ y.real.val * y.real.val := mul_self_nonneg _
    exact ne_of_gt (by linarith)

theorem div_complex_spec (x y : Complex) (hx : ComplexValid x) (hy : ComplexValid y)
    (hnz : ¬(y.real.numerator = 0 ∧ y.imaginary.numerator = 0)) :
    ComplexValid (x.div y) ∧
    (x.div y).real.val = (x.real.val * y.real.val + x.imaginary.val * y.imaginary.val)
      / (y.real.val * y.real.val + y.imaginary.val * y.imaginary.val) ∧
    (x.div y).imaginary.val = (x.imaginary.val * y.real.val - x.real.val * y.imaginary.val)
      / (y.real.val * y.real.val + y.imaginary.val * y.imaginary.val) := by
  obtain ⟨hxr, hxi⟩ := hx
  obtain ⟨hyr, hyi⟩ := hy
  have hMden : 0 < ((y.real.mul y.real).add (y.imaginary.mul y.imaginary)).denominator :=
    add_den_pos _ _ (mul_den_pos _ _ hyr hyr) (mul_den_pos _ _ hyi hyi)
  have hMval : ((y.real.mul y.real).add (y.imaginary.mul y.imaginary)).val
      = y.real.val * y.real.val + y.imaginary.val * y.imaginary.val := by
    rw [add_val _ _ (mul_den_pos _ _ hyr hyr) (mul_den_pos _ _ hyi hyi),
      mul_val _ _ hyr hyr, mul_val _ _ hyi hyi]
  have hSne := sq_modulus_ne_zero y hyr hyi hnz
  have hMnum : ((y.real.mul y.real).add (y.imaginary.mul y.imaginary)).numerator ≠ 0 :=
    num_ne_zero_of_val_ne _ (by rw [hMval]; exact hSne)
  obtain ⟨⟨hnr, hni⟩, hre, him⟩ :=
    mul_complex_spec x y.conjugate ⟨hxr, hxi⟩ ⟨hyr, hyi⟩
  refine ⟨⟨div_den_pos _ _ hnr hMnum, div_den_pos _ _ hni hMnum⟩, ?_, ?_⟩
  · show ((x.mul y.conjugate).real.div
      ((y.real.mul y.real).add (y.imaginary.mul y.imaginary))).val = _
    rw [div_val _ _ hnr hMnum, hre, hMval,
      show y.conjugate.real.val = y.real.val from rfl,
      show y.conjugate.imaginary.val = -y.imaginary.val from neg_val _]
    ring_nf
  · show ((x.mul y.conjugate).imaginary.div
      ((y.real.mul y.real).add (y.imaginary.mul y.imaginary))).val = _
    rw [div_val _ _ hni hMnum, him, hMval,
      show y.conjugate.real.val = y.real.val from rfl,
      show y.conjugate.imaginary.val = -y.imaginary.val from neg_val _]
    ring_nf

/-- **C8**.  For valid complex operands `a` and `b`, with `b` not the zero
complex value (some component has a nonzero numerator), division by `b` is
inverted by multiplication: `(a / b) * b == a` under the crate's
component-wise `Fraction` value equality (`PartialEq for Complex`). -/
theorem C8_div_mul_cancel (a b : Complex)
    (har : 0 < a.real.denominator) (hai : 0 < a.imaginary.denominator)
    (hbr : 0 < b.real.denominator) (hbi : 0 < b.imaginary.denominator)
    (hnz : ¬(b.real.numerator = 0 ∧ b.imaginary.numerator = 0)) :
    Complex.beq ((a.div b).mul b) a = true := by
  obtain ⟨⟨hdr, hdi⟩, hreval, himval⟩ :=
    div_complex_spec a b ⟨har, hai⟩ ⟨hbr, hbi⟩ hnz
  obtain ⟨⟨hmr, hmi⟩, hmre, hmim⟩ := mul_complex_spec (a.div b) b ⟨hdr, hdi⟩ ⟨hbr, hbi⟩
  have hS := sq_modulus_ne_zero b hbr hbi hnz
  unfold Complex.beq
  rw [Bool.and_eq_true]
  constructor
  · refine (beq_iff_val _ _ hmr har).mpr ?_
    rw [hmre, hreval, himval]
    field_simp
    ring
  · refine (beq_iff_val _ _ hmi hai).mpr ?_
    rw [hmim, hreval, himval]
    field_simp
    ring

theorem C8_div_mul_cancel_witness :
    Complex.beq ((Complex.div ⟨⟨20, 1⟩, ⟨-4, 1⟩⟩ ⟨⟨3, 1⟩, ⟨2, 1⟩⟩).mul ⟨⟨3, 1⟩, ⟨2, 1⟩⟩)
      ⟨⟨20, 1⟩, ⟨-4, 1⟩⟩ = true :=
  C8_div_mul_cancel ⟨⟨20, 1⟩, ⟨-4, 1⟩⟩ ⟨⟨3, 1⟩, ⟨2, 1⟩⟩
    (by decide) (by decide) (by decide) (by decide) (by decide)

end Frac
